import Mathlib

/-!
Verification of the edit-action ingestion and application engine of the
react-app-ai-builder backend (Go).  Go strings are embedded as `List Char`,
the project filesystem as an association list from cleaned path-segment
lists to file contents.  The definitions follow the Go source: the most
complete backend variant (`cleanAIResponse`, `applyEdits`, `handleEdit`)
and, in namespace `V2`, the older variant whose `callOllama` carries the
empty-batch check and the 100-action cap.
-/

set_option maxHeartbeats 1000000

/-- Go strings, embedded as character lists. -/
abbrev Str := List Char

/-- Go `strings.HasPrefix s pre` is `startsWithL pre s`. -/
def startsWithL {α : Type} [DecidableEq α] : List α → List α → Bool
  | [], _ => true
  | _ :: _, [] => false
  | p :: ps, c :: cs => if p = c then startsWithL ps cs else false

/-- Go `strings.Contains l pat` (substring test). -/
def containsStr {α : Type} [DecidableEq α] : List α → List α → Bool
  | [], pat => startsWithL pat []
  | c :: cs, pat => startsWithL pat (c :: cs) || containsStr cs pat

/-- Go `strings.TrimPrefix l pre` is `trimPrefixL pre l`. -/
def trimPrefixL (pre l : Str) : Str :=
  if startsWithL pre l then l.drop pre.length else l

theorem startsWithL_iff {α : Type} [DecidableEq α] (p l : List α) :
    startsWithL p l = true ↔ ∃ t, l = p ++ t := by
  induction p generalizing l with
  | nil => simp [startsWithL]
  | cons x xs ih =>
    cases l with
    | nil =>
      simp only [startsWithL, List.cons_append]
      constructor
      · intro h; cases h
      · rintro ⟨t, h⟩; cases h
    | cons c cs =>
      simp only [startsWithL, List.cons_append]
      by_cases hx : x = c
      · subst hx
        rw [if_pos rfl, ih cs]
        constructor
        · rintro ⟨t, rfl⟩; exact ⟨t, rfl⟩
        · rintro ⟨t, h⟩
          injection h with _ h2
          exact ⟨t, h2⟩
      · rw [if_neg hx]
        constructor
        · intro h; cases h
        · rintro ⟨t, h⟩
          injection h with h1 _
          exact absurd h1.symm hx

theorem containsStr_iff {α : Type} [DecidableEq α] (l pat : List α) :
    containsStr l pat = true ↔ ∃ s t, l = s ++ pat ++ t := by
  induction l with
  | nil =>
    simp only [containsStr, startsWithL_iff]
    constructor
    · rintro ⟨t, h⟩
      exact ⟨[], t, by simpa using h⟩
    · rintro ⟨s, t, h⟩
      obtain ⟨-, h3, -⟩ : s = [] ∧ pat = [] ∧ t = [] := by
        simpa [List.append_assoc] using h.symm
      exact ⟨[], by simp [h3]⟩
  | cons c cs ih =>
    simp only [containsStr, Bool.or_eq_true, startsWithL_iff, ih]
    constructor
    · rintro (⟨t, h⟩ | ⟨s, t, h⟩)
      · exact ⟨[], t, by simpa using h⟩
      · exact ⟨c :: s, t, by simp [h]⟩
    · rintro ⟨s, t, h⟩
      cases s with
      | nil => exact Or.inl ⟨t, by simpa using h⟩
      | cons x xs =>
        injection h with _ h2
        exact Or.inr ⟨xs, t, h2⟩

/-- A substring of a suffix extension is still a substring. -/
theorem containsStr_append_left {α : Type} [DecidableEq α] (a q pat : List α)
    (h : containsStr q pat = true) : containsStr (a ++ q) pat = true := by
  rcases (containsStr_iff q pat).mp h with ⟨s, t, rfl⟩
  exact (containsStr_iff _ pat).mpr ⟨a ++ s, t, by simp⟩

/-- If no character of `pat` occurs in `a`, an occurrence of `pat` in `a ++ q`
lies entirely inside `q`. -/
theorem containsStr_append_elim {α : Type} [DecidableEq α] (a q pat : List α)
    (hdisj : ∀ ch ∈ pat, ch ∉ a) (h : containsStr (a ++ q) pat = true) :
    containsStr q pat = true := by
  induction a with
  | nil => simpa using h
  | cons x xs ih =>
    simp only [List.cons_append, containsStr, Bool.or_eq_true] at h
    rcases h with h | h
    · rcases (startsWithL_iff pat _).mp h with ⟨t, ht⟩
      cases pat with
      | nil => cases q with
        | nil => simp [containsStr, startsWithL]
        | cons _ _ => simp [containsStr, startsWithL]
      | cons p ps =>
        injection ht with h1 _
        exact absurd (List.mem_cons_self x xs) (h1 ▸ hdisj p (List.mem_cons_self p ps))
    · exact ih (fun ch hch => fun hmem => hdisj ch hch (List.mem_cons_of_mem x hmem)) h

/-- Substring containment survives `List.drop` in the forward direction:
if a pattern occurs in `l.drop k` it occurs in `l`. -/
theorem containsStr_of_drop {α : Type} [DecidableEq α] (l pat : List α) (k : Nat)
    (h : containsStr (l.drop k) pat = true) : containsStr l pat = true := by
  have : l = l.take k ++ l.drop k := (List.take_append_drop k l).symm
  rw [this]
  exact containsStr_append_left _ _ _ h

/-! ### Path model: Go `path/filepath` lexical cleaning over segment lists -/

/-- `const projectRoot = "../frontend/src"` from the Go source. -/
def projectRootS : Str := "../frontend/src".toList

/-- The protected-file marker: `strings.Contains(path, "SidePanel")`. -/
def sidePanelMarker : Str := "SidePanel".toList

def dotdotS : Str := "..".toList

def dotS : Str := ".".toList

def slashS : Str := "/".toList

def srcSlashS : Str := "src/".toList

/-- Split a character list at a separator character, Go `strings.Split` style:
the result is always non-empty and concatenating the groups with the
separator restores the input. -/
def splitOnChar (sep : Char) : Str → List Str
  | [] => [[]]
  | x :: xs =>
    let r := splitOnChar sep xs
    if x = sep then [] :: r
    else
      match r with
      | [] => [[x]]
      | g :: gs => (x :: g) :: gs

/-- The non-empty path segments of a Go path string, as produced by the
lexical pass of `filepath.Clean` (empty segments from duplicate or edge
slashes are discarded). -/
def splitPath (p : Str) : List Str :=
  (splitOnChar '/' p).filter (fun g => g ≠ [])

/-- One step of Go `filepath.Clean`'s segment processing; the accumulator
holds the already-cleaned segments in reverse order.  `.` is dropped; `..`
pops the previous segment unless there is none or it is itself `..`
(the relative-path case of `Clean`). -/
def cleanStep (acc : List Str) (seg : Str) : List Str :=
  if seg = dotS then acc
  else if seg = dotdotS then
    match acc with
    | [] => [dotdotS]
    | a :: rest => if a = dotdotS then dotdotS :: a :: rest else rest
  else seg :: acc

/-- Go `filepath.Clean` on a relative path, as a function on segment lists. -/
def cleanSegs (segs : List Str) : List Str :=
  (segs.foldl cleanStep []).reverse

/-- A canonical on-disk location: the segment list of a cleaned path. -/
abbrev FilePath' := List Str

/-- The cleaned segments of the project root `../frontend/src`. -/
def rootSegs : FilePath' := cleanSegs (splitPath projectRootS)

/-- Fuel-driven helper for `normalizePath`. -/
def stripRootDup : Nat → Str → Str
  | 0, p => p
  | n + 1, p => if startsWithL srcSlashS p then stripRootDup n (p.drop srcSlashS.length) else p

/-- Modelled from the spec: the body of `normalizePath`, which `applyEdits`
in the most complete backend variant calls on every action path, is not
present in the provided sources (only its call site is).  Per the spec's
Path Normalizer rule 3 it strips any redundant leading segment duplicating
the project's own root folder name (`src`), countering the model tendency
to re-prefix paths (`src/src/...`); all other paths are returned
unchanged. -/
def normalizePath (p : Str) : Str := stripRootDup p.length p

/-- `filepath.Join(projectRoot, strings.TrimPrefix(normalizedPath, "src/"))`
from `applyEdits`: join the trimmed relative path onto the project root and
clean the result. -/
def joinUnderRoot (np : Str) : FilePath' :=
  cleanSegs (splitPath projectRootS ++ splitPath (trimPrefixL srcSlashS np))

/-- The on-disk target of an action path in the most complete backend
variant: normalize, trim a redundant `src/`, join under the root. -/
def fullPathOf (p : Str) : FilePath' := joinUnderRoot (normalizePath p)

/-! ### Filesystem model

The project tree is an association list from cleaned segment paths to file
contents.  Directories are implicit: a path is a directory when some file
lives strictly below it.  `writeFS` models `os.MkdirAll` + `ioutil.WriteFile`
(failing when a parent component is an existing file, or when the target
itself is a directory); `osRemove` models `os.Remove` (distinguishing the
`IsNotExist` error, which `applyEdits` tolerates, from others). -/

abbrev FS := List (FilePath' × Str)

def lookupFS : FS → FilePath' → Option Str
  | [], _ => none
  | (k, v) :: fs, p => if k = p then some v else lookupFS fs p

def eraseFS : FS → FilePath' → FS
  | [], _ => []
  | (k, v) :: fs, p => if k = p then eraseFS fs p else (k, v) :: eraseFS fs p

def setFS (fs : FS) (p : FilePath') (v : Str) : FS := (p, v) :: eraseFS fs p

/-- `p` is an (implicit, necessarily non-empty) directory of `fs`. -/
def isDirFS (fs : FS) (p : FilePath') : Bool :=
  fs.any (fun e => startsWithL p e.1 && decide (p ≠ e.1))

/-- Some existing file is a strict prefix of `p`, so `os.MkdirAll` on `p`'s
parent fails. -/
def fileConflictFS (fs : FS) (p : FilePath') : Bool :=
  fs.any (fun e => startsWithL e.1 p && decide (e.1 ≠ p))

inductive FsErr where
  | notExist
  | notEmpty
  | isDirTarget
  | fileInPath
  deriving DecidableEq, Repr

/-- `os.MkdirAll(filepath.Dir(p))` followed by `ioutil.WriteFile(p, c)`. -/
def writeFS (fs : FS) (p : FilePath') (c : Str) : Except FsErr FS :=
  if fileConflictFS fs p then .error .fileInPath
  else if isDirFS fs p then .error .isDirTarget
  else .ok (setFS fs p c)

/-- `os.Remove(p)`. -/
def osRemove (fs : FS) (p : FilePath') : Except FsErr FS :=
  match lookupFS fs p with
  | some _ => .ok (eraseFS fs p)
  | none => if isDirFS fs p then .error .notEmpty else .error .notExist

/-! ### The edit actions and the applier of the most complete backend variant -/

/-- One element of `AIEditActions.Actions`: `{Type, Path, Content string}`. -/
structure EditAction where
  type' : Str
  path : Str
  content : Str
  deriving DecidableEq, Repr

/-- The per-action outcome observable in `applyEdits`' log. -/
inductive Outcome where
  | applied
  | skippedProtected
  | skippedDangerous
  | unknownKind
  | failed (e : FsErr)
  deriving DecidableEq, Repr

def createS : Str := "create".toList

def updateS : Str := "update".toList

def deleteS : Str := "delete".toList

/-- The body of `applyEdits`' loop in the most complete backend variant:
normalize the path, skip protected (`SidePanel`) paths, skip dangerous
(`..` or absolute) paths, then switch on the action type.  On an I/O error
the Go code does `return err`; here that surfaces as a `.failed` outcome
which `applyEdits` turns into an early return. -/
def applyStep (fs : FS) (act : EditAction) : FS × Outcome :=
  let normalizedPath := normalizePath act.path
  if containsStr normalizedPath sidePanelMarker then (fs, .skippedProtected)
  else if containsStr normalizedPath dotdotS || startsWithL slashS normalizedPath then
    (fs, .skippedDangerous)
  else
    let fullPath := joinUnderRoot normalizedPath
    if act.type' = createS ∨ act.type' = updateS then
      match writeFS fs fullPath act.content with
      | .ok fs2 => (fs2, .applied)
      | .error e => (fs, .failed e)
    else if act.type' = deleteS then
      match osRemove fs fullPath with
      | .ok fs2 => (fs2, .applied)
      | .error FsErr.notExist => (fs, .applied)
      | .error e => (fs, .failed e)
    else (fs, .unknownKind)

/-- `applyEdits` of the most complete backend variant: fold the loop body
over the batch in order; a `.failed` step makes the function return that
error immediately (Go `return err`), otherwise the whole batch is
processed.  The outcome list is the per-action log trace. -/
def applyEdits (fs : FS) (acts : List EditAction) : FS × List Outcome × Option FsErr :=
  match acts with
  | [] => (fs, [], none)
  | a :: rest =>
    match applyStep fs a with
    | (fs1, Outcome.failed e) => (fs1, [Outcome.failed e], some e)
    | (fs1, o) =>
      let r := applyEdits fs1 rest
      (r.1, o :: r.2.1, r.2.2)

inductive EditErr where
  | noActions
  | ioFailure (e : FsErr)
  deriving DecidableEq, Repr

/-- The tail of `handleEdit` in the most complete backend variant, from the
decoded action list on: run `applyEdits`; on error answer HTTP 500, else
answer `{"status":"success","applied": len(edits.Actions)}`. -/
def handleEdit (fs : FS) (edits : List EditAction) : Except EditErr (FS × List Outcome × Nat) :=
  match applyEdits fs edits with
  | (_, _, some e) => .error (.ioFailure e)
  | (fs2, outs, none) => .ok (fs2, outs, edits.length)

/-! ### The older backend variant (second document of `backend/main.go`) -/

namespace V2

/-- `filepath.Join(projectRoot, "..", act.Path)` of the older variant's
`applyEdits`. -/
def fullPathOf (p : Str) : FilePath' :=
  cleanSegs (splitPath projectRootS ++ dotdotS :: splitPath p)

/-- The loop body of the older variant's `applyEdits`: no protected-file
and no dangerous-path checks, same type switch. -/
def applyStep (fs : FS) (act : EditAction) : FS × Outcome :=
  let fullPath := fullPathOf act.path
  if act.type' = createS ∨ act.type' = updateS then
    match writeFS fs fullPath act.content with
    | .ok fs2 => (fs2, .applied)
    | .error e => (fs, .failed e)
  else if act.type' = deleteS then
    match osRemove fs fullPath with
    | .ok fs2 => (fs2, .applied)
    | .error FsErr.notExist => (fs, .applied)
    | .error e => (fs, .failed e)
  else (fs, .unknownKind)

/-- The older variant's `applyEdits`. -/
def applyEdits (fs : FS) (acts : List EditAction) : FS × List Outcome × Option FsErr :=
  match acts with
  | [] => (fs, [], none)
  | a :: rest =>
    match applyStep fs a with
    | (fs1, Outcome.failed e) => (fs1, [Outcome.failed e], some e)
    | (fs1, o) =>
      let r := applyEdits fs1 rest
      (r.1, o :: r.2.1, r.2.2)

/-- What `callOllama`'s `log.Println` calls record about the batch size. -/
inductive CapNote where
  | quiet
  | reviewFlag
  | truncated
  deriving DecidableEq, Repr

/-- The batch-size policy at the end of the older variant's `callOllama`,
after the response has been decoded into an action list: zero actions is
the error `"no actions returned by AI"`; more than 100 actions are cut to
the first 100; more than 50 are only flagged for review. -/
def capActions (acts : List EditAction) : Except EditErr (List EditAction × CapNote) :=
  if acts.length = 0 then .error .noActions
  else
    let capped :=
      if 100 < acts.length then (acts.take 100, CapNote.truncated)
      else if 50 < acts.length then (acts, CapNote.reviewFlag)
      else (acts, CapNote.quiet)
    if capped.1.length = 0 then .error .noActions else .ok capped

/-- The apply stage of the older variant's `handleEdit`. -/
def applyStage (fs : FS) (acts : List EditAction) : Except EditErr (FS × List Outcome) :=
  match applyEdits fs acts with
  | (_, _, some e) => .error (.ioFailure e)
  | (fs2, outs, none) => .ok (fs2, outs)

/-- The older variant's `handleEdit` from the decoded action list on: a
`callOllama` error (here: the batch-size policy) short-circuits, otherwise
`applyEdits` runs. -/
def handleEdit (fs : FS) (decoded : List EditAction) : Except EditErr (FS × List Outcome) :=
  match capActions decoded with
  | .error e => .error e
  | .ok (acts, _) => applyStage fs acts

end V2

/-! ### The response sanitizer `cleanAIResponse` -/

/-- Fuel-driven core of Go `strings.ReplaceAll(l, pat, rep)`: scan left to
right, replacing non-overlapping occurrences.  With fuel `≥ l.length` this
is exactly `ReplaceAll` for non-empty patterns. -/
def replaceAllGo : Nat → Str → Str → Str → Str
  | 0, _, _, l => l
  | _ + 1, _, _, [] => []
  | n + 1, pat, rep, c :: cs =>
    if startsWithL pat (c :: cs) then
      rep ++ replaceAllGo n pat rep ((c :: cs).drop pat.length)
    else c :: replaceAllGo n pat rep cs

/-- Go `strings.ReplaceAll(l, pat, rep)`. -/
def replaceAllL (l pat rep : Str) : Str := replaceAllGo l.length pat rep l

/-- Go `strings.LastIndex(l, [c])` for the single-character patterns used
by `cleanAIResponse`. -/
def lastIdxOf (c : Char) (l : Str) : Option Nat :=
  match l.reverse.findIdx? (fun x => x = c) with
  | some j => some (l.length - 1 - j)
  | none => none

/-- `cleanAIResponse` from the most complete backend variant: trim to the
span from the first `{` to the last `}` (each only under the source's
index conditions), then apply the eight fix-up substitutions in order. -/
def cleanAIResponse (response : Str) : Str :=
  let r1 :=
    match response.findIdx? (fun c => c = '{') with
    | some i => if 0 < i then response.drop i else response
    | none => response
  let r2 :=
    match lastIdxOf '}' r1 with
    | some i => if 0 < i ∧ i + 1 < r1.length then r1.take (i + 1) else r1
    | none => r1
  let r3 := replaceAllL r2 "\\u003c".toList "<".toList
  let r4 := replaceAllL r3 "\\u003e".toList ">".toList
  let r5 := replaceAllL r4 "\\u0026".toList "&".toList
  let r6 := replaceAllL r5 "\\u0027".toList "'".toList
  let r7 := replaceAllL r6 "\\u0022".toList "\"".toList
  let r8 := replaceAllL r7 "\\un".toList "\\n".toList
  let r9 := replaceAllL r8 ");n\x7d".toList ");\x7d".toList
  replaceAllL r9 "\\n\x7d".toList "\x7d".toList

/-! ### Support lemmas -/

theorem replaceAllGo_id (pat rep : Str) :
    ∀ (n : Nat) (l : Str), containsStr l pat = false → replaceAllGo n pat rep l = l := by
  intro n
  induction n with
  | zero => intro l _; rfl
  | succ n ih =>
    intro l hl
    cases l with
    | nil => rfl
    | cons c cs =>
      simp only [containsStr, Bool.or_eq_false_iff] at hl
      simp only [replaceAllGo, hl.1, Bool.false_eq_true, if_false]
      rw [ih cs hl.2]

theorem replaceAllL_id (l pat rep : Str) (h : containsStr l pat = false) :
    replaceAllL l pat rep = l :=
  replaceAllGo_id pat rep l.length l h

theorem lookupFS_eraseFS (fs : FS) (p q : FilePath') :
    lookupFS (eraseFS fs p) q = if p = q then none else lookupFS fs q := by
  induction fs with
  | nil => simp [eraseFS, lookupFS]
  | cons e fs ih =>
    obtain ⟨k, w⟩ := e
    simp only [eraseFS, lookupFS]
    by_cases hk : k = p
    · rw [if_pos hk, ih]
      by_cases hpq : p = q
      · rw [if_pos hpq, if_pos hpq]
      · rw [if_neg hpq, if_neg hpq, if_neg (fun h => hpq ((hk.symm.trans h)))]
    · rw [if_neg hk]
      simp only [lookupFS]
      by_cases hkq : k = q
      · have hpq : p ≠ q := fun h => hk (hkq.trans h.symm)
        rw [if_pos hkq, if_neg hpq, if_pos hkq]
      · rw [if_neg hkq, ih]
        by_cases hpq : p = q
        · rw [if_pos hpq, if_pos hpq]
        · rw [if_neg hpq, if_neg hpq, if_neg hkq]

theorem lookupFS_setFS (fs : FS) (p : FilePath') (v : Str) (q : FilePath') :
    lookupFS (setFS fs p v) q = if p = q then some v else lookupFS fs q := by
  unfold setFS
  simp only [lookupFS]
  by_cases hpq : p = q
  · rw [if_pos hpq, if_pos hpq]
  · rw [if_neg hpq, if_neg hpq, lookupFS_eraseFS, if_neg hpq]

theorem startsWithL_append_self {α : Type} [DecidableEq α] (a t : List α) :
    startsWithL a (a ++ t) = true :=
  (startsWithL_iff a (a ++ t)).mpr ⟨t, rfl⟩

theorem stripRootDup_of_not_startsWith (p : Str) (h : startsWithL srcSlashS p = false) :
    ∀ n, stripRootDup n p = p := by
  intro n
  cases n with
  | zero => rfl
  | succ n => simp [stripRootDup, h]

theorem stripRootDup_drop (n : Nat) (p : Str) : ∃ k, stripRootDup n p = p.drop k := by
  induction n generalizing p with
  | zero => exact ⟨0, (List.drop_zero p).symm⟩
  | succ n ih =>
    by_cases h : startsWithL srcSlashS p = true
    · obtain ⟨k, hk⟩ := ih (p.drop srcSlashS.length)
      refine ⟨srcSlashS.length + k, ?_⟩
      simp only [stripRootDup, h, if_true]
      rw [hk, List.drop_drop]
    · rw [stripRootDup_of_not_startsWith p (Bool.not_eq_true _ ▸ by simpa using h)]
      exact ⟨0, (List.drop_zero p).symm⟩

theorem normalizePath_not_contains (p pat : Str) (h : containsStr p pat = false) :
    containsStr (normalizePath p) pat = false := by
  obtain ⟨k, hk⟩ := stripRootDup_drop p.length p
  unfold normalizePath
  rw [hk]
  cases hc : containsStr (p.drop k) pat with
  | false => rfl
  | true => exact absurd (containsStr_of_drop p pat k hc) (by simp [h])

theorem stripRootDup_preserves (pat : Str) (hd : ∀ ch ∈ pat, ch ∉ srcSlashS) :
    ∀ (n : Nat) (p : Str), containsStr p pat = true →
      containsStr (stripRootDup n p) pat = true := by
  intro n
  induction n with
  | zero => intro p hp; exact hp
  | succ n ih =>
    intro p hp
    by_cases h : startsWithL srcSlashS p = true
    · obtain ⟨t, rfl⟩ := (startsWithL_iff srcSlashS p).mp h
      simp only [stripRootDup, h, if_true, List.drop_left]
      exact ih t (containsStr_append_elim srcSlashS t pat hd hp)
    · rwa [stripRootDup_of_not_startsWith p (by simpa using h)]

theorem normalizePath_preserves (p pat : Str) (hd : ∀ ch ∈ pat, ch ∉ srcSlashS)
    (h : containsStr p pat = true) : containsStr (normalizePath p) pat = true :=
  stripRootDup_preserves pat hd p.length p h

theorem normalizePath_of_slash (p : Str) (h : startsWithL slashS p = true) :
    normalizePath p = p := by
  obtain ⟨t, rfl⟩ := (startsWithL_iff slashS p).mp h
  show stripRootDup (slashS ++ t).length (slashS ++ t) = slashS ++ t
  have hlen : (slashS ++ t).length = t.length + 1 := by simp [slashS]
  rw [hlen]
  have hsw : startsWithL srcSlashS (slashS ++ t) = false := by
    simp [srcSlashS, slashS, startsWithL]
  simp [stripRootDup, hsw]

theorem stripRootDup_fuel (n : Nat) : ∀ (m : Nat) (p : Str), p.length ≤ n → p.length ≤ m →
    stripRootDup n p = stripRootDup m p := by
  induction n with
  | zero =>
    intro m p hn _
    have : p = [] := List.eq_nil_of_length_eq_zero (Nat.le_zero.mp hn)
    subst this
    have h0 : startsWithL srcSlashS ([] : Str) = false := by simp [srcSlashS, startsWithL]
    rw [stripRootDup_of_not_startsWith _ h0, stripRootDup_of_not_startsWith _ h0]
  | succ n ih =>
    intro m p hn hm
    by_cases h : startsWithL srcSlashS p = true
    · obtain ⟨t, rfl⟩ := (startsWithL_iff srcSlashS p).mp h
      have hlen : (srcSlashS ++ t).length = t.length + 4 := by simp [srcSlashS]
      cases m with
      | zero =>
        exfalso
        rw [hlen] at hm
        omega
      | succ m =>
        simp only [stripRootDup, h, if_true, List.drop_left]
        rw [hlen] at hn hm
        exact ih m t (by omega) (by omega)
    · rw [stripRootDup_of_not_startsWith p (by simpa using h),
        stripRootDup_of_not_startsWith p (by simpa using h)]

theorem normalizePath_srcSlash_append (p : Str) :
    normalizePath (srcSlashS ++ p) = normalizePath p := by
  unfold normalizePath
  have hlen : (srcSlashS ++ p).length = p.length + 4 := by simp [srcSlashS]
  rw [hlen]
  simp only [stripRootDup, startsWithL_append_self, if_true, List.drop_left]
  exact stripRootDup_fuel (p.length + 3) p.length p (by omega) (Nat.le_refl _)

theorem splitOnChar_ne_nil (sep : Char) (l : Str) : splitOnChar sep l ≠ [] := by
  cases l with
  | nil => simp [splitOnChar]
  | cons x xs =>
    simp only [splitOnChar]
    by_cases h : x = sep
    · simp [h]
    · simp only [if_neg h]
      cases splitOnChar sep xs with
      | nil => simp
      | cons g gs => simp

theorem splitOnChar_head_decomp (sep : Char) (l : Str) :
    ∃ g gs t, splitOnChar sep l = g :: gs ∧ l = g ++ t := by
  induction l with
  | nil => exact ⟨[], [], [], rfl, rfl⟩
  | cons x xs ih =>
    by_cases h : x = sep
    · refine ⟨[], splitOnChar sep xs, x :: xs, ?_, rfl⟩
      simp [splitOnChar, h]
    · obtain ⟨g, gs, t, hsp, hxs⟩ := ih
      refine ⟨x :: g, gs, t, ?_, by simp [hxs]⟩
      simp [splitOnChar, h, hsp]

theorem splitOnChar_mem_decomp (sep : Char) (l : Str) (g : Str)
    (hg : g ∈ splitOnChar sep l) : ∃ s t, l = s ++ g ++ t := by
  induction l generalizing g with
  | nil =>
    simp only [splitOnChar, List.mem_singleton] at hg
    exact ⟨[], [], by simp [hg]⟩
  | cons x xs ih =>
    simp only [splitOnChar] at hg
    by_cases h : x = sep
    · rw [if_pos h] at hg
      rcases List.mem_cons.mp hg with rfl | hg
      · exact ⟨[], x :: xs, by simp⟩
      · obtain ⟨s, t, hst⟩ := ih g hg
        exact ⟨x :: s, t, by simp [hst]⟩
    · rw [if_neg h] at hg
      obtain ⟨g0, gs, t0, hsp, hxs⟩ := splitOnChar_head_decomp sep xs
      rw [hsp] at hg
      rcases List.mem_cons.mp hg with rfl | hg
      · exact ⟨[], t0, by simp [hxs]⟩
      · obtain ⟨s, t, hst⟩ := ih g (hsp ▸ List.mem_cons_of_mem g0 hg)
        exact ⟨x :: s, t, by simp [hst]⟩

theorem splitPath_mem_decomp (p : Str) (g : Str) (hg : g ∈ splitPath p) :
    ∃ s t, p = s ++ g ++ t :=
  splitOnChar_mem_decomp '/' p g (List.mem_filter.mp hg).1

theorem containsStr_trimPrefix (pre l pat : Str)
    (h : containsStr (trimPrefixL pre l) pat = true) : containsStr l pat = true := by
  unfold trimPrefixL at h
  by_cases hs : startsWithL pre l = true
  · rw [if_pos hs] at h
    exact containsStr_of_drop l pat pre.length h
  · rwa [if_neg hs] at h

/-- A path segment of `p` that equals or contains a pattern forces the
pattern into `p` itself. -/
theorem containsStr_of_seg (p g pat : Str) (hg : g ∈ splitPath p)
    (h : containsStr g pat = true) : containsStr p pat = true := by
  obtain ⟨s, t, rfl⟩ := splitPath_mem_decomp p g hg
  obtain ⟨s1, t1, rfl⟩ := (containsStr_iff g pat).mp h
  exact (containsStr_iff _ pat).mpr ⟨s ++ s1, t1 ++ t, by simp⟩

theorem foldl_cleanStep_no_dotdot :
    ∀ (segs : List Str) (acc : List Str), (∀ g ∈ segs, g ≠ dotdotS) →
      segs.foldl cleanStep acc = (segs.filter (fun g => g ≠ dotS)).reverse ++ acc := by
  intro segs
  induction segs with
  | nil => intro acc _; simp
  | cons g rest ih =>
    intro acc hno
    have hgd : g ≠ dotdotS := hno g (List.mem_cons_self g rest)
    have hrest : ∀ g ∈ rest, g ≠ dotdotS := fun x hx => hno x (List.mem_cons_of_mem g hx)
    by_cases hdot : g = dotS
    · simp only [List.foldl_cons, cleanStep, if_pos hdot, ih _ hrest,
        List.filter_cons, hdot]
      simp
    · simp only [List.foldl_cons, cleanStep, if_neg hdot, if_neg hgd, ih _ hrest,
        List.filter_cons]
      rw [if_pos (by simpa using hdot)]
      simp

theorem rootFold_eq : List.foldl cleanStep [] (splitPath projectRootS) = rootSegs.reverse :=
  (List.reverse_reverse _).symm

theorem rootSegs_eq : rootSegs = [dotdotS, "frontend".toList, "src".toList] := by decide

theorem joinUnderRoot_eq (np : Str) (hnd : containsStr np dotdotS = false) :
    joinUnderRoot np =
      rootSegs ++ (splitPath (trimPrefixL srcSlashS np)).filter (fun g => g ≠ dotS) := by
  have hA : ∀ g ∈ splitPath (trimPrefixL srcSlashS np), g ≠ dotdotS := by
    intro g hg hgd
    subst hgd
    have h1 : containsStr (trimPrefixL srcSlashS np) dotdotS = true :=
      containsStr_of_seg _ _ _ hg (by decide)
    have h2 := containsStr_trimPrefix _ _ _ h1
    rw [hnd] at h2
    cases h2
  unfold joinUnderRoot cleanSegs
  rw [List.foldl_append, rootFold_eq, foldl_cleanStep_no_dotdot _ _ hA,
    List.reverse_append, List.reverse_reverse, List.reverse_reverse]

theorem joinUnderRoot_startsWith (np : Str) (hnd : containsStr np dotdotS = false) :
    startsWithL rootSegs (joinUnderRoot np) = true := by
  rw [joinUnderRoot_eq np hnd]
  exact startsWithL_append_self _ _

theorem joinUnderRoot_seg_no_marker (np : Str) (hnd : containsStr np dotdotS = false)
    (hm : containsStr np sidePanelMarker = false) :
    ∀ g ∈ joinUnderRoot np, containsStr g sidePanelMarker = false := by
  intro g hg
  rw [joinUnderRoot_eq np hnd] at hg
  rcases List.mem_append.mp hg with h | h
  · rw [rootSegs_eq] at h
    simp only [List.mem_cons, List.not_mem_nil, or_false] at h
    rcases h with rfl | rfl | rfl <;> decide
  · have hg2 := (List.mem_filter.mp h).1
    cases hc : containsStr g sidePanelMarker with
    | false => rfl
    | true =>
      have h3 := containsStr_trimPrefix srcSlashS np sidePanelMarker
        (containsStr_of_seg _ _ _ hg2 hc)
      rw [hm] at h3
      cases h3

/-- Inversion for `writeFS`. -/
theorem writeFS_ok (fs : FS) (p : FilePath') (c : Str) (fs2 : FS)
    (h : writeFS fs p c = .ok fs2) : fs2 = setFS fs p c := by
  unfold writeFS at h
  split_ifs at h with h1 h2
  cases h
  rfl

/-- Inversion for `osRemove`. -/
theorem osRemove_ok (fs : FS) (p : FilePath') (fs2 : FS)
    (h : osRemove fs p = .ok fs2) : fs2 = eraseFS fs p := by
  unfold osRemove at h
  cases hl : lookupFS fs p with
  | some v =>
    rw [hl] at h
    exact (Except.ok.inj h).symm
  | none =>
    rw [hl] at h
    split_ifs at h

/-- Dichotomy for one applier step of the most complete variant: either the
filesystem is unchanged at `q`, or `q` is the action's join target and the
step passed all guards. -/
theorem applyStep_lookup (fs : FS) (a : EditAction) (q : FilePath') :
    lookupFS (applyStep fs a).1 q = lookupFS fs q ∨
      (q = joinUnderRoot (normalizePath a.path) ∧
        containsStr (normalizePath a.path) sidePanelMarker = false ∧
        containsStr (normalizePath a.path) dotdotS = false ∧
        startsWithL slashS (normalizePath a.path) = false) := by
  unfold applyStep
  by_cases h1 : containsStr (normalizePath a.path) sidePanelMarker = true
  · rw [if_pos h1]
    exact Or.inl rfl
  · rw [if_neg h1]
    by_cases h2 : (containsStr (normalizePath a.path) dotdotS
        || startsWithL slashS (normalizePath a.path)) = true
    · rw [if_pos h2]
      exact Or.inl rfl
    · rw [if_neg h2]
      have h2' : containsStr (normalizePath a.path) dotdotS = false ∧
          startsWithL slashS (normalizePath a.path) = false := by
        constructor <;>
          [cases hx : containsStr (normalizePath a.path) dotdotS;
           cases hx : startsWithL slashS (normalizePath a.path)] <;>
          first
            | rfl
            | exact absurd (by rw [hx]; simp) h2
      have h1' : containsStr (normalizePath a.path) sidePanelMarker = false := by
        cases hx : containsStr (normalizePath a.path) sidePanelMarker
        · rfl
        · exact absurd hx h1
      by_cases h3 : a.type' = createS ∨ a.type' = updateS
      · rw [if_pos h3]
        cases hw : writeFS fs (joinUnderRoot (normalizePath a.path)) a.content with
        | ok fs2 =>
          dsimp only
          rw [writeFS_ok _ _ _ _ hw, lookupFS_setFS]
          by_cases hq : joinUnderRoot (normalizePath a.path) = q
          · exact Or.inr ⟨hq.symm, h1', h2'.1, h2'.2⟩
          · rw [if_neg hq]
            exact Or.inl rfl
        | error e =>
          exact Or.inl rfl
      · rw [if_neg h3]
        by_cases h4 : a.type' = deleteS
        · rw [if_pos h4]
          cases hr : osRemove fs (joinUnderRoot (normalizePath a.path)) with
          | ok fs2 =>
            dsimp only
            rw [osRemove_ok _ _ _ hr, lookupFS_eraseFS]
            by_cases hq : joinUnderRoot (normalizePath a.path) = q
            · exact Or.inr ⟨hq.symm, h1', h2'.1, h2'.2⟩
            · rw [if_neg hq]
              exact Or.inl rfl
          | error e =>
            cases e <;> exact Or.inl rfl
        · rw [if_neg h4]
          exact Or.inl rfl

theorem applyEdits_lookup (acts : List EditAction) : ∀ (fs : FS) (q : FilePath'),
    lookupFS (applyEdits fs acts).1 q = lookupFS fs q ∨ startsWithL rootSegs q = true := by
  induction acts with
  | nil => intro fs q; exact Or.inl rfl
  | cons a rest ih =>
    intro fs q
    have hroot : lookupFS (applyStep fs a).1 q = lookupFS fs q ∨
        startsWithL rootSegs q = true := by
      rcases applyStep_lookup fs a q with h | ⟨rfl, _, hnd, _⟩
      · exact Or.inl h
      · exact Or.inr (joinUnderRoot_startsWith _ hnd)
    rcases hsa : applyStep fs a with ⟨fs1, o⟩
    rw [hsa] at hroot
    simp only [applyEdits]
    rw [hsa]
    cases o with
    | failed e => exact hroot
    | applied =>
      dsimp only
      rcases ih fs1 q with h | h
      · rcases hroot with h' | h'
        · exact Or.inl (h.trans h')
        · exact Or.inr h'
      · exact Or.inr h
    | skippedProtected =>
      dsimp only
      rcases ih fs1 q with h | h
      · rcases hroot with h' | h'
        · exact Or.inl (h.trans h')
        · exact Or.inr h'
      · exact Or.inr h
    | skippedDangerous =>
      dsimp only
      rcases ih fs1 q with h | h
      · rcases hroot with h' | h'
        · exact Or.inl (h.trans h')
        · exact Or.inr h'
      · exact Or.inr h
    | unknownKind =>
      dsimp only
      rcases ih fs1 q with h | h
      · rcases hroot with h' | h'
        · exact Or.inl (h.trans h')
        · exact Or.inr h'
      · exact Or.inr h

theorem applyStep_lookup_marker (fs : FS) (a : EditAction) (q : FilePath')
    (hq : ∃ g ∈ q, containsStr g sidePanelMarker = true) :
    lookupFS (applyStep fs a).1 q = lookupFS fs q := by
  rcases applyStep_lookup fs a q with h | ⟨rfl, hm, hnd, _⟩
  · exact h
  · obtain ⟨g, hg, hgm⟩ := hq
    have h2 := joinUnderRoot_seg_no_marker _ hnd hm g hg
    rw [hgm] at h2
    cases h2

theorem applyEdits_lookup_marker (acts : List EditAction) : ∀ (fs : FS) (q : FilePath'),
    (∃ g ∈ q, containsStr g sidePanelMarker = true) →
      lookupFS (applyEdits fs acts).1 q = lookupFS fs q := by
  induction acts with
  | nil => intro fs q _; rfl
  | cons a rest ih =>
    intro fs q hq
    have hroot := applyStep_lookup_marker fs a q hq
    rcases hsa : applyStep fs a with ⟨fs1, o⟩
    rw [hsa] at hroot
    simp only [applyEdits]
    rw [hsa]
    cases o with
    | failed e => exact hroot
    | applied => exact (ih fs1 q hq).trans hroot
    | skippedProtected => exact (ih fs1 q hq).trans hroot
    | skippedDangerous => exact (ih fs1 q hq).trans hroot
    | unknownKind => exact (ih fs1 q hq).trans hroot

theorem applyStep_protected (fs : FS) (a : EditAction)
    (h : containsStr a.path sidePanelMarker = true) :
    applyStep fs a = (fs, Outcome.skippedProtected) := by
  have hnp : containsStr (normalizePath a.path) sidePanelMarker = true :=
    normalizePath_preserves a.path sidePanelMarker (by decide) h
  unfold applyStep
  rw [if_pos hnp]

theorem applyStep_dangerous (fs : FS) (a : EditAction)
    (h : containsStr a.path dotdotS = true ∨ startsWithL slashS a.path = true)
    (hm : containsStr a.path sidePanelMarker = false) :
    applyStep fs a = (fs, Outcome.skippedDangerous) := by
  have hnm : containsStr (normalizePath a.path) sidePanelMarker = false :=
    normalizePath_not_contains a.path sidePanelMarker hm
  have hcond : (containsStr (normalizePath a.path) dotdotS
      || startsWithL slashS (normalizePath a.path)) = true := by
    rcases h with h | h
    · rw [normalizePath_preserves a.path dotdotS (by decide) h]
      simp
    · rw [normalizePath_of_slash a.path h, h]
      simp
  unfold applyStep
  rw [if_neg (by simp [hnm]), if_pos hcond]

theorem applyEdits_cons_continue (fs : FS) (a : EditAction) (rest : List EditAction)
    (h : ∀ e, (applyStep fs a).2 ≠ Outcome.failed e) :
    applyEdits fs (a :: rest) =
      ((applyEdits (applyStep fs a).1 rest).1,
        (applyStep fs a).2 :: (applyEdits (applyStep fs a).1 rest).2.1,
        (applyEdits (applyStep fs a).1 rest).2.2) := by
  rcases hsa : applyStep fs a with ⟨fs1, o⟩
  simp only [applyEdits]
  rw [hsa]

theorem applyEdits_complete (acts : List EditAction) : ∀ (fs : FS),
    (applyEdits fs acts).2.2 = none → (applyEdits fs acts).2.1.length = acts.length := by
  induction acts with
  | nil => intro fs _; rfl
  | cons a rest ih =>
    intro fs h
    rcases hsa : applyStep fs a with ⟨fs1, o⟩
    simp only [applyEdits] at h ⊢
    rw [hsa] at h ⊢
    cases o with
    | failed e => cases h
    | applied => simpa using ih fs1 h
    | skippedProtected => simpa using ih fs1 h
    | skippedDangerous => simpa using ih fs1 h
    | unknownKind => simpa using ih fs1 h

/-! ### Claims -/

/-- C1: for every action whose path contains a parent-traversal segment or
an absolute prefix (and not the protected marker, which the source checks
first), the applier of the most complete variant leaves the filesystem
untouched and records the dangerous-path skip; and applying any batch can
only create, overwrite, or delete paths that lie within the project root
`../frontend/src`. -/
theorem claim_c1 :
    (∀ (fs : FS) (a : EditAction),
      containsStr a.path dotdotS = true ∨ startsWithL slashS a.path = true →
      containsStr a.path sidePanelMarker = false →
      applyStep fs a = (fs, Outcome.skippedDangerous)) ∧
    (∀ (fs : FS) (acts : List EditAction) (q : FilePath'),
      lookupFS (applyEdits fs acts).1 q ≠ lookupFS fs q →
      startsWithL rootSegs q = true) := by
  constructor
  · exact fun fs a h hm => applyStep_dangerous fs a h hm
  · intro fs acts q hne
    rcases applyEdits_lookup acts fs q with h | h
    · exact absurd h hne
    · exact h

/-- Witness for C1 at the spec's own scenario `../../etc/passwd`. -/
theorem claim_c1_witness :
    (containsStr "../../etc/passwd".toList dotdotS = true ∨
      startsWithL slashS "../../etc/passwd".toList = true) ∧
    containsStr "../../etc/passwd".toList sidePanelMarker = false ∧
    applyStep [] ⟨deleteS, "../../etc/passwd".toList, []⟩ = ([], Outcome.skippedDangerous) :=
  ⟨Or.inl (by decide), by decide,
    claim_c1.1 [] ⟨deleteS, "../../etc/passwd".toList, []⟩ (Or.inl (by decide)) (by decide)⟩

/-- C2: every action whose path contains the protected marker `SidePanel`
is skipped with the filesystem untouched, whatever its kind; and the
content of any on-disk file whose path has a segment containing the marker
is invariant under applying any batch. -/
theorem claim_c2 :
    (∀ (fs : FS) (a : EditAction),
      containsStr a.path sidePanelMarker = true →
      applyStep fs a = (fs, Outcome.skippedProtected)) ∧
    (∀ (fs : FS) (acts : List EditAction) (q : FilePath'),
      (∃ g ∈ q, containsStr g sidePanelMarker = true) →
      lookupFS (applyEdits fs acts).1 q = lookupFS fs q) := by
  constructor
  · exact fun fs a h => applyStep_protected fs a h
  · exact fun fs acts q hq => applyEdits_lookup_marker acts fs q hq

/-- Witness for C2: a protected update is skipped, and the stored SidePanel
file survives a batch that targets it with every kind. -/
theorem claim_c2_witness :
    containsStr "src/components/SidePanel.tsx".toList sidePanelMarker = true ∧
    applyStep [] ⟨updateS, "src/components/SidePanel.tsx".toList, "x".toList⟩
      = ([], Outcome.skippedProtected) ∧
    (∃ g ∈ [dotdotS, "frontend".toList, "src".toList, "components".toList,
        "SidePanel.tsx".toList], containsStr g sidePanelMarker = true) ∧
    lookupFS
      (applyEdits
        [([dotdotS, "frontend".toList, "src".toList, "components".toList,
            "SidePanel.tsx".toList], "old".toList)]
        [⟨createS, "src/components/SidePanel.tsx".toList, "x".toList⟩,
         ⟨deleteS, "components/SidePanel.tsx".toList, []⟩,
         ⟨"rename".toList, "src/components/SidePanel.tsx".toList, []⟩]).1
      [dotdotS, "frontend".toList, "src".toList, "components".toList, "SidePanel.tsx".toList]
      = lookupFS
        [([dotdotS, "frontend".toList, "src".toList, "components".toList,
            "SidePanel.tsx".toList], "old".toList)]
        [dotdotS, "frontend".toList, "src".toList, "components".toList, "SidePanel.tsx".toList] :=
  ⟨by decide,
    claim_c2.1 [] ⟨updateS, "src/components/SidePanel.tsx".toList, "x".toList⟩ (by decide),
    ⟨"SidePanel.tsx".toList, by decide, by decide⟩,
    claim_c2.2 _ _ _ ⟨"SidePanel.tsx".toList, by decide, by decide⟩⟩

/-- The claim of C3 fails on the code: the input is strictly valid JSON
with no characters outside the brace span, yet `cleanAIResponse` rewrites
its legitimate `\u003c` escape into a literal `<`. -/
theorem claim_c3_counterexample :
    cleanAIResponse "\x7b\"a\":\"\\u003c\"\x7d".toList ≠ "\x7b\"a\":\"\\u003c\"\x7d".toList ∧
    cleanAIResponse "\x7b\"a\":\"\\u003c\"\x7d".toList = "\x7b\"a\":\"<\"\x7d".toList := by
  constructor
  · decide
  · decide

/-- C3 (amended): `cleanAIResponse` is total by construction, and returns
its input unchanged when the input has no characters before its first
brace or after its last brace and contains none of the eight fix-up
patterns; strictly valid JSON containing one of the patterns (such as a
`\u003c` escape) is rewritten. -/
theorem claim_c3 (r : Str)
    (hfirst : r.head? = some '{')
    (hlast : r.getLast? = some '}')
    (h1 : containsStr r "\\u003c".toList = false)
    (h2 : containsStr r "\\u003e".toList = false)
    (h3 : containsStr r "\\u0026".toList = false)
    (h4 : containsStr r "\\u0027".toList = false)
    (h5 : containsStr r "\\u0022".toList = false)
    (h6 : containsStr r "\\un".toList = false)
    (h7 : containsStr r ");n\x7d".toList = false)
    (h8 : containsStr r "\\n\x7d".toList = false) :
    cleanAIResponse r = r := by
  have hstep1 : (match r.findIdx? (fun c => c = '{') with
      | some i => if 0 < i then r.drop i else r
      | none => r) = r := by
    cases r with
    | nil => rfl
    | cons c t =>
      have hc : c = '{' := by simpa using hfirst
      subst hc
      simp [List.findIdx?_cons]
  have hstep2 : (match lastIdxOf '}' r with
      | some i => if 0 < i ∧ i + 1 < r.length then r.take (i + 1) else r
      | none => r) = r := by
    have hrev : r.reverse.head? = some '}' := by
      rw [List.head?_reverse]
      exact hlast
    cases hrevl : r.reverse with
    | nil => rw [hrevl] at hrev; cases hrev
    | cons c s =>
      rw [hrevl] at hrev
      have hc : c = '}' := by simpa using hrev
      subst hc
      have hidx : lastIdxOf '}' r = some (r.length - 1) := by
        unfold lastIdxOf
        rw [hrevl]
        simp [List.findIdx?_cons]
      rw [hidx]
      have hlen : 1 ≤ r.length := by
        cases r with
        | nil => cases hfirst
        | cons _ _ => simp
      dsimp only
      rw [if_neg (by omega)]
  simp only [cleanAIResponse]
  rw [hstep1, hstep2, replaceAllL_id _ _ _ h1, replaceAllL_id _ _ _ h2,
    replaceAllL_id _ _ _ h3, replaceAllL_id _ _ _ h4, replaceAllL_id _ _ _ h5,
    replaceAllL_id _ _ _ h6, replaceAllL_id _ _ _ h7, replaceAllL_id _ _ _ h8]

/-- Witness for C3 (amended) at a strictly valid JSON object free of the
fix-up patterns. -/
theorem claim_c3_witness :
    ("\x7b\"a\":1\x7d".toList.head? = some '{') ∧
    ("\x7b\"a\":1\x7d".toList.getLast? = some '}') ∧
    cleanAIResponse "\x7b\"a\":1\x7d".toList = "\x7b\"a\":1\x7d".toList :=
  ⟨by decide, by decide,
    claim_c3 "\x7b\"a\":1\x7d".toList (by decide) (by decide) (by decide) (by decide)
      (by decide) (by decide) (by decide) (by decide) (by decide) (by decide)⟩

/-- The claim of C4 fails on the code: in this three-action batch the
second action's write fails (its parent component `a` is an existing
file), `applyEdits` returns that error at once (Go `return err`), and the
third action is never processed — two outcomes for three actions. -/
theorem claim_c4_counterexample :
    applyEdits []
        [⟨createS, "a".toList, "x".toList⟩,
         ⟨createS, "a/b".toList, "y".toList⟩,
         ⟨createS, "c".toList, "z".toList⟩]
      = ([([dotdotS, "frontend".toList, "src".toList, "a".toList], "x".toList)],
         [Outcome.applied, Outcome.failed FsErr.fileInPath], some FsErr.fileInPath) ∧
    (2 : Nat) ≠ (3 : Nat) := by
  constructor
  · decide
  · decide

/-- C4 (amended): actions are processed in their original order and a
per-action protected-path, escape, or unknown-kind outcome never aborts
the remainder, but an I/O failure does: `applyEdits` returns the error
immediately and later actions are not processed; when no I/O failure
occurs the whole batch runs to completion with one outcome per action. -/
theorem claim_c4 :
    (∀ (fs : FS) (a : EditAction) (rest : List EditAction),
      (∀ e, (applyStep fs a).2 ≠ Outcome.failed e) →
      applyEdits fs (a :: rest) =
        ((applyEdits (applyStep fs a).1 rest).1,
          (applyStep fs a).2 :: (applyEdits (applyStep fs a).1 rest).2.1,
          (applyEdits (applyStep fs a).1 rest).2.2)) ∧
    (∀ (fs : FS) (a : EditAction) (rest : List EditAction) (e : FsErr),
      (applyStep fs a).2 = Outcome.failed e →
      applyEdits fs (a :: rest) = ((applyStep fs a).1, [Outcome.failed e], some e)) ∧
    (∀ (fs : FS) (acts : List EditAction),
      (applyEdits fs acts).2.2 = none →
      (applyEdits fs acts).2.1.length = acts.length) := by
  refine ⟨applyEdits_cons_continue, ?_, fun fs acts => applyEdits_complete acts fs⟩
  intro fs a rest e he
  rcases hsa : applyStep fs a with ⟨fs1, o⟩
  rw [hsa] at he
  dsimp only at he
  subst he
  simp only [applyEdits]
  rw [hsa]

/-- Witness for C4 (amended): a protected skip does not abort the batch,
which then completes with one outcome per action. -/
theorem claim_c4_witness :
    (∀ e, (applyStep [] ⟨updateS, "src/SidePanel.tsx".toList, "x".toList⟩).2
        ≠ Outcome.failed e) ∧
    applyEdits [] [⟨updateS, "src/SidePanel.tsx".toList, "x".toList⟩,
        ⟨deleteS, "nope.txt".toList, []⟩] =
      ((applyEdits (applyStep [] ⟨updateS, "src/SidePanel.tsx".toList, "x".toList⟩).1
          [⟨deleteS, "nope.txt".toList, []⟩]).1,
        (applyStep [] ⟨updateS, "src/SidePanel.tsx".toList, "x".toList⟩).2 ::
          (applyEdits (applyStep [] ⟨updateS, "src/SidePanel.tsx".toList, "x".toList⟩).1
            [⟨deleteS, "nope.txt".toList, []⟩]).2.1,
        (applyEdits (applyStep [] ⟨updateS, "src/SidePanel.tsx".toList, "x".toList⟩).1
          [⟨deleteS, "nope.txt".toList, []⟩]).2.2) ∧
    (applyEdits [] [⟨updateS, "src/SidePanel.tsx".toList, "x".toList⟩,
        ⟨deleteS, "nope.txt".toList, []⟩]).2.1.length = 2 :=
  ⟨fun e h => Outcome.noConfusion h,
    claim_c4.1 [] ⟨updateS, "src/SidePanel.tsx".toList, "x".toList⟩
      [⟨deleteS, "nope.txt".toList, []⟩] (fun e h => Outcome.noConfusion h),
    claim_c4.2.2 [] [⟨updateS, "src/SidePanel.tsx".toList, "x".toList⟩,
      ⟨deleteS, "nope.txt".toList, []⟩] (by decide)⟩

/-- C5: a decoded action list with zero entries makes the older variant's
`callOllama` fail with `"no actions returned by AI"`; its `handleEdit`
then answers that error and `applyEdits` is never invoked (the error
branch carries no filesystem and no success payload). -/
theorem claim_c5 :
    ∀ (decoded : List EditAction) (fs : FS),
      decoded.length = 0 →
      V2.capActions decoded = .error EditErr.noActions ∧
      V2.handleEdit fs decoded = .error EditErr.noActions := by
  intro decoded fs h
  have hcap : V2.capActions decoded = .error EditErr.noActions := by
    unfold V2.capActions
    rw [if_pos h]
  refine ⟨hcap, ?_⟩
  unfold V2.handleEdit
  rw [hcap]

/-- Witness for C5 at the empty decoded batch. -/
theorem claim_c5_witness :
    ([] : List EditAction).length = 0 ∧
    V2.capActions ([] : List EditAction) = .error EditErr.noActions ∧
    V2.handleEdit [] ([] : List EditAction) = .error EditErr.noActions :=
  ⟨rfl, (claim_c5 [] [] rfl).1, (claim_c5 [] [] rfl).2⟩

/-- C6: a parsed batch of more than 100 actions is truncated to exactly its
first 100 actions in order and still proceeds to the apply stage (not a
failure); a batch of more than 50 but at most 100 actions is passed on
unmodified and only flagged for review. -/
theorem claim_c6 :
    ∀ (acts : List EditAction),
      (100 < acts.length →
        V2.capActions acts = .ok (acts.take 100, V2.CapNote.truncated) ∧
        (acts.take 100).length = 100 ∧
        ∀ fs, V2.handleEdit fs acts = V2.applyStage fs (acts.take 100)) ∧
      (50 < acts.length → acts.length ≤ 100 →
        V2.capActions acts = .ok (acts, V2.CapNote.reviewFlag) ∧
        ∀ fs, V2.handleEdit fs acts = V2.applyStage fs acts) := by
  intro acts
  constructor
  · intro h100
    have hne : ¬ acts.length = 0 := by omega
    have hlen : (acts.take 100).length = 100 := by
      rw [List.length_take]
      omega
    have hcap : V2.capActions acts = .ok (acts.take 100, V2.CapNote.truncated) := by
      simp only [V2.capActions]
      rw [if_neg hne, if_pos h100]
      dsimp only
      rw [hlen]
      rw [if_neg (by decide)]
    refine ⟨hcap, hlen, fun fs => ?_⟩
    unfold V2.handleEdit
    rw [hcap]
  · intro h50 hle
    have hne : ¬ acts.length = 0 := by omega
    have hnot100 : ¬ 100 < acts.length := by omega
    have hcap : V2.capActions acts = .ok (acts, V2.CapNote.reviewFlag) := by
      simp only [V2.capActions]
      rw [if_neg hne, if_neg hnot100, if_pos h50]
      dsimp only
      rw [if_neg hne]
    refine ⟨hcap, fun fs => ?_⟩
    unfold V2.handleEdit
    rw [hcap]

/-- Witness for C6: 121 parsed actions are capped to the first 100 and
accepted; 60 parsed actions pass through unmodified, only flagged. -/
theorem claim_c6_witness :
    100 < (List.replicate 121 (⟨createS, "a".toList, "x".toList⟩ : EditAction)).length ∧
    V2.capActions (List.replicate 121 (⟨createS, "a".toList, "x".toList⟩ : EditAction)) =
      .ok ((List.replicate 121 (⟨createS, "a".toList, "x".toList⟩ : EditAction)).take 100,
        V2.CapNote.truncated) ∧
    ((List.replicate 121 (⟨createS, "a".toList, "x".toList⟩ : EditAction)).take 100).length
      = 100 ∧
    50 < (List.replicate 60 (⟨createS, "a".toList, "x".toList⟩ : EditAction)).length ∧
    (List.replicate 60 (⟨createS, "a".toList, "x".toList⟩ : EditAction)).length ≤ 100 ∧
    V2.capActions (List.replicate 60 (⟨createS, "a".toList, "x".toList⟩ : EditAction)) =
      .ok (List.replicate 60 (⟨createS, "a".toList, "x".toList⟩ : EditAction),
        V2.CapNote.reviewFlag) :=
  ⟨by simp, ((claim_c6 _).1 (by simp)).1, ((claim_c6 _).1 (by simp)).2.1,
    by simp, by simp, ((claim_c6 _).2 (by simp) (by simp)).1⟩

/-- C7: whenever the most complete variant's `handleEdit` answers success,
the `applied` field is the length of the decoded batch — the number of
actions processed, counting skipped ones — not the number of filesystem
mutations performed. -/
theorem claim_c7 :
    ∀ (fs : FS) (edits : List EditAction) (r : FS × List Outcome × Nat),
      handleEdit fs edits = .ok r → r.2.2 = edits.length := by
  intro fs edits r h
  unfold handleEdit at h
  rcases hae : applyEdits fs edits with ⟨fs2, rest⟩
  rcases rest with ⟨outs, err⟩
  rw [hae] at h
  cases err with
  | some e => cases h
  | none =>
    have h2 := Except.ok.inj h
    rw [← h2]

/-- Witness for C7: a batch whose first action is skipped as protected
still reports `applied = 2`, the batch size, with only one mutation-free
outcome pair recorded. -/
theorem claim_c7_witness :
    handleEdit []
        [⟨updateS, "src/SidePanel.tsx".toList, "x".toList⟩,
         ⟨deleteS, "nope.txt".toList, []⟩]
      = .ok ([], [Outcome.skippedProtected, Outcome.applied], 2) ∧
    (([], [Outcome.skippedProtected, Outcome.applied], 2) : FS × List Outcome × Nat).2.2
      = 2 :=
  ⟨by rfl,
    claim_c7 [] [⟨updateS, "src/SidePanel.tsx".toList, "x".toList⟩,
      ⟨deleteS, "nope.txt".toList, []⟩] ([], [Outcome.skippedProtected, Outcome.applied], 2)
      (by rfl)⟩

/-- C8: stripping the redundant root-duplicating prefix makes an action
path `src/` ++ P and the plain path P resolve to the same on-disk target,
and the two actions have identical applier behaviour on any filesystem
(this holds for every P, in particular for marker-free ones). -/
theorem claim_c8 :
    ∀ (p t c : Str) (fs : FS),
      fullPathOf (srcSlashS ++ p) = fullPathOf p ∧
      applyStep fs ⟨t, srcSlashS ++ p, c⟩ = applyStep fs ⟨t, p, c⟩ := by
  intro p t c fs
  have hnorm : normalizePath (srcSlashS ++ p) = normalizePath p :=
    normalizePath_srcSlash_append p
  constructor
  · unfold fullPathOf
    rw [hnorm]
  · unfold applyStep
    dsimp only
    rw [hnorm]

/-- C9: a delete action that passes the guards and whose normalized target
neither exists as a file nor as a directory is recorded `Applied`, never a
failure, and leaves the filesystem unchanged. -/
theorem claim_c9 :
    ∀ (fs : FS) (a : EditAction),
      a.type' = deleteS →
      containsStr (normalizePath a.path) sidePanelMarker = false →
      containsStr (normalizePath a.path) dotdotS = false →
      startsWithL slashS (normalizePath a.path) = false →
      lookupFS fs (fullPathOf a.path) = none →
      isDirFS fs (fullPathOf a.path) = false →
      applyStep fs a = (fs, Outcome.applied) := by
  intro fs a ht hm hd hs hlook hdir
  unfold fullPathOf at hlook hdir
  unfold applyStep
  rw [if_neg (by simp [hm]), if_neg (by simp [hd, hs])]
  have hnc : ¬(a.type' = createS ∨ a.type' = updateS) := by
    rintro (h | h) <;> rw [ht] at h <;> exact absurd h (by decide)
  rw [if_neg hnc, if_pos ht]
  unfold osRemove
  rw [hlook, if_neg (by simp [hdir])]

/-- Witness for C9: deleting a missing file on a filesystem holding one
unrelated file yields `Applied` and no change. -/
theorem claim_c9_witness :
    ((⟨deleteS, "missing.txt".toList, []⟩ : EditAction).type' = deleteS) ∧
    lookupFS [([dotdotS, "frontend".toList, "src".toList, "App.tsx".toList], "x".toList)]
      (fullPathOf "missing.txt".toList) = none ∧
    isDirFS [([dotdotS, "frontend".toList, "src".toList, "App.tsx".toList], "x".toList)]
      (fullPathOf "missing.txt".toList) = false ∧
    applyStep [([dotdotS, "frontend".toList, "src".toList, "App.tsx".toList], "x".toList)]
        ⟨deleteS, "missing.txt".toList, []⟩
      = ([([dotdotS, "frontend".toList, "src".toList, "App.tsx".toList], "x".toList)],
         Outcome.applied) :=
  ⟨rfl, by decide, by decide,
    claim_c9 [([dotdotS, "frontend".toList, "src".toList, "App.tsx".toList], "x".toList)]
      ⟨deleteS, "missing.txt".toList, []⟩ rfl (by decide) (by decide) (by decide)
      (by decide) (by decide)⟩

/-- C10: `create` and `update` take the same switch branch, so they have
identical filesystem effect on every input; and a guard-passing write that
meets no directory conflict succeeds with the target set to the new
content, with no hypothesis on whether the target previously existed. -/
theorem claim_c10 :
    ∀ (fs : FS) (p c : Str),
      applyStep fs ⟨createS, p, c⟩ = applyStep fs ⟨updateS, p, c⟩ ∧
      (containsStr (normalizePath p) sidePanelMarker = false →
        containsStr (normalizePath p) dotdotS = false →
        startsWithL slashS (normalizePath p) = false →
        fileConflictFS fs (fullPathOf p) = false →
        isDirFS fs (fullPathOf p) = false →
        applyStep fs ⟨updateS, p, c⟩ = (setFS fs (fullPathOf p) c, Outcome.applied)) := by
  intro fs p c
  constructor
  · rfl
  · intro hm hd hs hconf hdir
    unfold fullPathOf at hconf hdir ⊢
    unfold applyStep
    dsimp only
    rw [if_neg (by simp [hm]), if_neg (by simp [hd, hs]), if_pos (Or.inr rfl)]
    unfold writeFS
    rw [hconf, hdir]
    simp

/-- Witness for C10: a create and an update on `App.tsx` behave identically,
and the update overwrites an already existing target with the new content. -/
theorem claim_c10_witness :
    containsStr (normalizePath "App.tsx".toList) sidePanelMarker = false ∧
    containsStr (normalizePath "App.tsx".toList) dotdotS = false ∧
    startsWithL slashS (normalizePath "App.tsx".toList) = false ∧
    fileConflictFS [(fullPathOf "App.tsx".toList, "old".toList)]
      (fullPathOf "App.tsx".toList) = false ∧
    isDirFS [(fullPathOf "App.tsx".toList, "old".toList)]
      (fullPathOf "App.tsx".toList) = false ∧
    applyStep [(fullPathOf "App.tsx".toList, "old".toList)]
        ⟨createS, "App.tsx".toList, "new".toList⟩
      = applyStep [(fullPathOf "App.tsx".toList, "old".toList)]
        ⟨updateS, "App.tsx".toList, "new".toList⟩ ∧
    applyStep [(fullPathOf "App.tsx".toList, "old".toList)]
        ⟨updateS, "App.tsx".toList, "new".toList⟩
      = (setFS [(fullPathOf "App.tsx".toList, "old".toList)]
          (fullPathOf "App.tsx".toList) "new".toList, Outcome.applied) :=
  ⟨by decide, by decide, by decide, by decide, by decide,
    (claim_c10 [(fullPathOf "App.tsx".toList, "old".toList)] "App.tsx".toList
      "new".toList).1,
    (claim_c10 [(fullPathOf "App.tsx".toList, "old".toList)] "App.tsx".toList
      "new".toList).2 (by decide) (by decide) (by decide) (by decide) (by decide)⟩
